import Mathlib

/-!
Verification of the manifest validation, package-directory resolution and
archive-naming logic of the command-launcher package action.

The TypeScript sources are embedded shallowly:

* `src/utils/manifest.ts` — `validateManifest`, `findPackageDirectories`,
  `sanitizeName`, `parsePackageArchiveName`;
* `src/validate.ts` — `validatePackages` (batch validation pass);
* `src/index.ts` — the post-validation failure decision of `run`;
* `src/package.ts` — the archive-name construction of `createPackages`.

JavaScript strings are modelled as `String` (lists of characters); fields
that a parsed YAML/JSON document may omit are `Option`s, and the JS
falsiness test `!x` on a string-valued field is `strFalsy`.  Filesystem
access is an explicit record of functions (`FS`), and fallible operations
return `Except String`.
-/

/-! ## JS string primitives -/

/-- Falsiness of a possibly-missing JS string: `undefined`, `null` and `""`
are falsy. -/
def strFalsy : Option String → Bool
  | none => true
  | some s => s.data.isEmpty

/-- String interpolation of a possibly-undefined JS value: template literals
print the text `undefined` for a missing value. -/
def showOpt : Option String → String
  | none => "undefined"
  | some s => s

/-- JS `s.startsWith(c)` for a one-character pattern: the first character of
`s` equals `c`. -/
def jsStartsWith (s : String) (c : Char) : Bool :=
  match s.data with
  | [] => false
  | d :: _ => d == c

/-- Boolean list-prefix test (used to model JS `String.replace` with a plain
string pattern and the regex anchors). -/
def isPrefixB : List Char → List Char → Bool
  | [], _ => true
  | _ :: _, [] => false
  | a :: as, b :: bs => a == b && isPrefixB as bs

/-- Character class `[a-z0-9]` (lowercase ASCII letter or ASCII digit). -/
def isLowerDigit (c : Char) : Bool :=
  c.isDigit || (97 ≤ c.toNat && c.toNat ≤ 122)

/-- The command/package-name regex of `validateManifest`, `/^[a-z0-9-]+$/`:
nonempty, every character a lowercase letter, digit or hyphen. -/
def codeNamePattern (s : String) : Bool :=
  !s.data.isEmpty && s.data.all (fun c => isLowerDigit c || c == '-')

/-! ## The name pattern claimed by the specification

The specification states the pattern `^[a-z0-9]+(-[a-z0-9]+)*$` (nonempty
lowercase-alphanumeric segments joined by single hyphens).  It is defined
here, from the spec's words, only to be compared against `codeNamePattern`
above, which is the pattern the source actually tests. -/

mutual

/-- Matches `[a-z0-9]+(-[a-z0-9]+)*` from the start: first character must be
alphanumeric. -/
def segPat : List Char → Bool
  | [] => false
  | c :: rest => isLowerDigit c && restPat rest

/-- Continuation after at least one alphanumeric character: either the end,
another alphanumeric character, or a hyphen that starts a fresh segment. -/
def restPat : List Char → Bool
  | [] => true
  | c :: rest => if c == '-' then segPat rest else isLowerDigit c && restPat rest

end

/-- The spec's name pattern `^[a-z0-9]+(-[a-z0-9]+)*$`. -/
def specNamePattern (s : String) : Bool := segPat s.data

/-! ## Data model (`src/types/manifest.ts`)

Fields that no verified operation consults (`short`, `long`, `executable`,
`args`, `subcommands`, `env`, `flags` on commands; `tags`, `description` on
metadata) are omitted.  All remaining fields are `Option`s because a parsed
YAML/JSON document may omit them. -/

structure PackageCommand where
  name : Option String
  type : Option String
deriving DecidableEq

structure PackageMetadata where
  author : Option String
  license : Option String
  homepage : Option String
  repository : Option String
deriving DecidableEq

structure PackageManifest where
  pkgName : Option String
  version : Option String
  cmds : Option (List PackageCommand)
  _metadata : Option PackageMetadata
deriving DecidableEq

structure ValidationResult where
  valid : Bool
  errors : List String
  warnings : List String
deriving DecidableEq

/-! ## node-semver `semver.valid` (strict mode)

`validateManifest` calls `semver.valid(version)`.  Strict parsing accepts
`v?` `MAJOR.MINOR.PATCH` (`0|[1-9]\d*` each, at most `Number.MAX_SAFE_INTEGER`)
with an optional `-prerelease` (dot-separated identifiers, each
`0|[1-9]\d*` or `\d*[a-zA-Z-][0-9a-zA-Z-]*`) and an optional `+build`
(dot-separated `[0-9a-zA-Z-]+` identifiers), on inputs of at most 256
characters. -/

/-- Numeric value of a digit string. -/
def chsVal (ds : List Char) : Nat :=
  ds.foldl (fun a c => a * 10 + (c.toNat - 48)) 0

/-- `Number.MAX_SAFE_INTEGER`. -/
def maxSafeInt : Nat := 9007199254740991

/-- Numeric identifier `0|[1-9]\d*`: digits, no leading zero unless the
identifier is exactly `0`. -/
def numericIdOk (ds : List Char) : Bool :=
  match ds with
  | [] => false
  | c :: rest => (c.isDigit && rest.all Char.isDigit) && (c != '0' || rest.isEmpty)

/-- A core version identifier: numeric and at most `MAX_SAFE_INTEGER`. -/
def coreIdOk (ds : List Char) : Bool :=
  numericIdOk ds && chsVal ds ≤ maxSafeInt

/-- Character class `[0-9A-Za-z-]` of semver identifiers. -/
def alnumHyphen (c : Char) : Bool :=
  c.isDigit || (65 ≤ c.toNat && c.toNat ≤ 90) || (97 ≤ c.toNat && c.toNat ≤ 122) || c == '-'

/-- Prerelease identifier: `0|[1-9]\d*` or `\d*[a-zA-Z-][0-9a-zA-Z-]*`. -/
def preIdOk (ds : List Char) : Bool :=
  !ds.isEmpty && ds.all alnumHyphen && (!ds.all Char.isDigit || numericIdOk ds)

/-- Build identifier: `[0-9a-zA-Z-]+`. -/
def buildIdOk (ds : List Char) : Bool :=
  !ds.isEmpty && ds.all alnumHyphen

/-- Split a character list on `.` (like splitting an identifier chain). -/
def splitOnDot : List Char → List (List Char)
  | [] => [[]]
  | c :: rest =>
    match splitOnDot rest with
    | [] => [[]]
    | g :: gs => if c == '.' then [] :: g :: gs else (c :: g) :: gs

/-- Split at the first `+` (separating prerelease from build metadata). -/
def splitAtPlus : List Char → List Char × Option (List Char)
  | [] => ([], none)
  | c :: rest =>
    if c == '+' then ([], some rest)
    else
      match splitAtPlus rest with
      | (a, b) => (c :: a, b)

/-- The optional `-prerelease` part. -/
def preOk (p : List Char) : Bool := (splitOnDot p).all preIdOk

/-- The optional `+build` part. -/
def buildOk (b : List Char) : Bool := (splitOnDot b).all buildIdOk

/-- What may follow `MAJOR.MINOR.PATCH`: nothing, `-prerelease`,
`+build`, or `-prerelease+build`. -/
def tailOk : List Char → Bool
  | [] => true
  | c :: rest =>
    if c == '-' then
      match splitAtPlus rest with
      | (p, none) => preOk p
      | (p, some b) => preOk p && buildOk b
    else if c == '+' then buildOk rest
    else false

/-- `MAJOR.MINOR.PATCH` followed by `tailOk` material. -/
def mainOk (cs : List Char) : Bool :=
  match cs.dropWhile Char.isDigit with
  | '.' :: u1 =>
    (match u1.dropWhile Char.isDigit with
     | '.' :: u2 =>
       coreIdOk (cs.takeWhile Char.isDigit) &&
       coreIdOk (u1.takeWhile Char.isDigit) &&
       coreIdOk (u2.takeWhile Char.isDigit) &&
       tailOk (u2.dropWhile Char.isDigit)
     | _ => false)
  | _ => false

/-- `semver.valid(s)` as a Boolean: strict parse, optional leading `v`,
256-character limit. -/
def semverValid (s : String) : Bool :=
  if s.data.length > 256 then false
  else
    match s.data with
    | 'v' :: rest => mainOk rest
    | cs => mainOk cs

/-! ## Validation error and warning messages (`validateManifest`) -/

def missingPkgNameMsg : String := "Missing required field: pkgName"

def missingVersionMsg : String := "Missing required field: version"

def invalidVersionPre : String := "Invalid version format: "

def vPrefixMsg (v : String) : String :=
  invalidVersionPre ++ v ++ ". Remove \x27v\x27 prefix (e.g., use 1.0.0 instead of v1.0.0)"

def badSemverMsg (v : String) : String :=
  invalidVersionPre ++ v ++ ". Must be valid semver (e.g., 1.0.0)"

def missingCmdsMsg : String := "Missing required field: cmds (must have at least one command)"

def missingNameMsg (i : Nat) : String :=
  "Command at index " ++ Nat.repr i ++ " is missing \x27name\x27 field"

def missingTypeMsg (nm : Option String) : String :=
  "Command \x27" ++ showOpt nm ++ "\x27 is missing \x27type\x27 field"

def invalidTypeMsg (nm : Option String) (t : String) : String :=
  "Command \x27" ++ showOpt nm ++ "\x27 has invalid type: " ++ t

def invalidCharsMsg (n : String) : String :=
  "Command name \x27" ++ n ++
    "\x27 contains invalid characters. Use lowercase letters, numbers, and hyphens only."

def warnAuthorMsg : String := "Missing recommended field: _metadata.author"

def warnLicenseMsg : String := "Missing recommended field: _metadata.license"

def warnRepositoryMsg : String := "Missing recommended field: _metadata.repository"

/-- The closed set of command types. -/
def validTypes : List String := ["executable", "alias", "group"]

/-! ## `validateManifest` (`src/utils/manifest.ts`, lines 33–98) -/

/-- Errors contributed by the command at index `i` of `cmds`: missing
`name`, missing or invalid `type`, and the name-format check
`cmd.name && !/^[a-z0-9-]+$/.test(cmd.name)`. -/
def cmdErrors (i : Nat) (cmd : PackageCommand) : List String :=
  (if strFalsy cmd.name then [missingNameMsg i] else []) ++
  (if strFalsy cmd.type then [missingTypeMsg cmd.name]
   else if validTypes.contains (showOpt cmd.type) then []
   else [invalidTypeMsg cmd.name (showOpt cmd.type)]) ++
  (if !strFalsy cmd.name && !codeNamePattern (showOpt cmd.name)
   then [invalidCharsMsg (showOpt cmd.name)] else [])

/-- The `for (let i = 0; ...)` loop over `manifest.cmds`, accumulating each
command's errors in order. -/
def cmdsErrors : Nat → List PackageCommand → List String
  | _, [] => []
  | i, c :: rest => cmdErrors i c ++ cmdsErrors (i + 1) rest

/-- `!manifest.cmds || manifest.cmds.length === 0`. -/
def cmdsMissingOrEmpty : Option (List PackageCommand) → Bool
  | none => true
  | some cs => cs.length == 0

/-- Falsiness of `manifest._metadata?.field` (optional chaining). -/
def metaStrFalsy (md : Option PackageMetadata) (f : PackageMetadata → Option String) : Bool :=
  match md with
  | none => true
  | some m => strFalsy (f m)

/-- The `errors` array built by `validateManifest`, in push order. -/
def manifestErrors (manifest : PackageManifest) : List String :=
  (if strFalsy manifest.pkgName then [missingPkgNameMsg] else []) ++
  (if strFalsy manifest.version then [missingVersionMsg]
   else if jsStartsWith (showOpt manifest.version) 'v' then [vPrefixMsg (showOpt manifest.version)]
   else if semverValid (showOpt manifest.version) then []
   else [badSemverMsg (showOpt manifest.version)]) ++
  (if cmdsMissingOrEmpty manifest.cmds then [missingCmdsMsg] else []) ++
  (match manifest.cmds with
   | none => []
   | some cs => cmdsErrors 0 cs)

/-- The `warnings` array built by `validateManifest`, in push order. -/
def manifestWarnings (manifest : PackageManifest) : List String :=
  (if metaStrFalsy manifest._metadata PackageMetadata.author then [warnAuthorMsg] else []) ++
  (if metaStrFalsy manifest._metadata PackageMetadata.license then [warnLicenseMsg] else []) ++
  (if metaStrFalsy manifest._metadata PackageMetadata.repository then [warnRepositoryMsg] else [])

/-- `validateManifest` (`src/utils/manifest.ts`): collects errors and
warnings and reports `valid` exactly when `errors.length === 0`. -/
def validateManifest (manifest : PackageManifest) : ValidationResult :=
  { valid := (manifestErrors manifest).length == 0
    errors := manifestErrors manifest
    warnings := manifestWarnings manifest }

example : semverValid "1.0.0" = true := by decide
example : semverValid "1.2.3-4.5.6" = true := by decide
example : semverValid "1.0.0-beta.1" = true := by decide
example : semverValid "v1.0.0" = true := by decide
example : semverValid "1.0" = false := by decide
example : semverValid "01.0.0" = false := by decide
example : semverValid "1.0.0-" = false := by decide
example : semverValid "1.0.0-a.pkgb" = true := by decide
example : semverValid "" = false := by decide
example : codeNamePattern "-" = true ∧ specNamePattern "-" = false := by decide
example : codeNamePattern "a--b" = true ∧ specNamePattern "a--b" = false := by decide
example : specNamePattern "my-plugin" = true := by decide
example :
    validateManifest
      { pkgName := some "test-plugin", version := some "1.0.0"
        cmds := some [{ name := some "test", type := some "executable" }]
        _metadata := none } =
    { valid := true, errors := []
      warnings := [warnAuthorMsg, warnLicenseMsg, warnRepositoryMsg] } := by decide

/-! ## Filesystem model and `findPackageDirectories`
(`src/utils/manifest.ts`, lines 100–139) -/

/-- One entry of `fs.readdir(dir, { withFileTypes: true })`. -/
structure FSEntry where
  name : String
  isDir : Bool
deriving DecidableEq

/-- The filesystem as seen by the resolver: `fs.access` succeeds exactly on
the paths where `pathExists` is true, and `fs.readdir` either lists a
directory or fails with an error message. -/
structure FS where
  pathExists : String → Bool
  readdir : String → Except String (List FSEntry)

/-- `path.join` for plain relative segments (as used by the resolver):
joining onto `""` or `"."` normalises them away. -/
def pathJoin (a b : String) : String :=
  if a = "" then b else if a = "." then b else a ++ "/" ++ b

/-- `findPackageDirectories(packagesDir)`: normalise the hint, prefer
single-package mode when the target directory itself holds `manifest.mf`,
otherwise keep the immediate subdirectory entries that hold one. -/
def findPackageDirectories (fs : FS) (packagesDir : String) : Except String (List String) :=
  let targetDir := if packagesDir = "" || packagesDir = "." then "." else packagesDir
  if fs.pathExists (pathJoin targetDir "manifest.mf") then Except.ok [targetDir]
  else
    match fs.readdir targetDir with
    | Except.error e => Except.error ("Failed to read packages directory: " ++ e)
    | Except.ok entries =>
      Except.ok (entries.filterMap (fun entry =>
        if entry.isDir && fs.pathExists (pathJoin (pathJoin targetDir entry.name) "manifest.mf")
        then some (pathJoin targetDir entry.name) else none))

/-- `path.basename`: the last `/`-separated component. -/
def lastComponent : List Char → List Char → List Char
  | [], acc => acc.reverse
  | c :: rest, acc => if c == '/' then lastComponent rest [] else lastComponent rest (c :: acc)

/-- `path.basename` on a plain relative path. -/
def basename (p : String) : String := ⟨lastComponent p.data []⟩

/-! ## `validatePackages` (`src/validate.ts`, lines 21–133) and the
failure decision of `run` (`src/index.ts`, lines 34–42) -/

structure ValidateResult where
  validPackages : List String
  invalidPackages : List String
  totalErrors : Nat
  totalWarnings : Nat
deriving DecidableEq

/-- Outcome of the per-directory `try` block of `validatePackages`:
`(directory valid, errors charged to it, warnings charged to it)`.
A read failure is caught and counted as one error; a manifest whose `cmds`
field is missing makes the `manifest.cmds.length` log line throw a
`TypeError`, which the same `catch` counts as one error; otherwise the
directory is charged its validation errors and warnings. -/
def dirOutcome (readM : String → Except String PackageManifest) (dir : String) :
    Bool × Nat × Nat :=
  match readM dir with
  | Except.error _ => (false, 1, 0)
  | Except.ok manifest =>
    match manifest.cmds with
    | none => (false, 1, 0)
    | some _ =>
      let validation := validateManifest manifest
      (validation.errors.length == 0, validation.errors.length, validation.warnings.length)

/-- The directory is recorded as valid. -/
def dirValid (readM : String → Except String PackageManifest) (dir : String) : Bool :=
  (dirOutcome readM dir).1

/-- Errors charged to the directory. -/
def dirErrCount (readM : String → Except String PackageManifest) (dir : String) : Nat :=
  (dirOutcome readM dir).2.1

/-- The `for (const packageDir of packageDirs)` loop of `validatePackages`:
names are recorded via `path.basename`, counters accumulate. -/
def processDirs (readM : String → Except String PackageManifest) :
    List String → ValidateResult
  | [] => { validPackages := [], invalidPackages := [], totalErrors := 0, totalWarnings := 0 }
  | dir :: rest =>
    let o := dirOutcome readM dir
    let r := processDirs readM rest
    { validPackages := (if o.1 then [basename dir] else []) ++ r.validPackages
      invalidPackages := (if o.1 then [] else [basename dir]) ++ r.invalidPackages
      totalErrors := o.2.1 + r.totalErrors
      totalWarnings := o.2.2 + r.totalWarnings }

/-- The `No packages found in ...` error text of `validatePackages`. -/
def noPackagesFoundMsg (packagesDirectory : String) : String :=
  (if packagesDirectory = "" || packagesDirectory = "."
   then "No packages found in current directory or subdirectories"
   else "No packages found in " ++ packagesDirectory) ++
  ". Ensure manifest.mf exists in root (single-package) or in subdirectories (multi-package)."

/-- `validatePackages`: resolve directories, abort when none were found,
otherwise evaluate every directory and return the aggregate. -/
def validatePackages (fs : FS) (readM : String → Except String PackageManifest)
    (packagesDirectory : String) : Except String ValidateResult :=
  match findPackageDirectories fs packagesDirectory with
  | Except.error e => Except.error e
  | Except.ok packageDirs =>
    if packageDirs.length == 0 then Except.error (noPackagesFoundMsg packagesDirectory)
    else Except.ok (processDirs readM packageDirs)

/-- Comma-space join (JS `Array.prototype.join(", ")`). -/
def joinComma : List String → String
  | [] => ""
  | [s] => s
  | s :: rest => s ++ ", " ++ joinComma rest

/-- The `Validation failed for N package(s): ...` error thrown by `run`. -/
def validationFailedMsg (invalid : List String) : String :=
  "Validation failed for " ++ Nat.repr invalid.length ++ " package(s): " ++ joinComma invalid

/-- The validation step of `run` (`src/index.ts`): after `validatePackages`
returns, throw when any package was invalid. -/
def runValidationStep (fs : FS) (readM : String → Except String PackageManifest)
    (packagesDirectory : String) : Except String ValidateResult :=
  match validatePackages fs readM packagesDirectory with
  | Except.error e => Except.error e
  | Except.ok r =>
    if r.invalidPackages.length > 0 then Except.error (validationFailedMsg r.invalidPackages)
    else Except.ok r

/-! ## `sanitizeName` (`src/utils/manifest.ts`, lines 141–143)

`name.toLowerCase().replace(/[^a-z0-9-]/g, '-')`.  JS `toLowerCase` applies
Unicode default case conversion, whose only multi-character lowercase
mapping is U+0130 (LATIN CAPITAL LETTER I WITH DOT ABOVE → `i` U+0307);
every other character maps to exactly one character.  The one-to-one part is
modelled by `Char.toLower` (exact on ASCII; the precise image of other
characters is irrelevant here because every non-`[a-z0-9-]` result is
replaced by `-`). -/

/-- Character-level model of JS `String.prototype.toLowerCase`. -/
def jsLowerChar (c : Char) : List Char :=
  if c.toNat == 0x130 then ['i', Char.ofNat 0x307] else [Char.toLower c]

/-- Character class `[a-z0-9-]` kept by the replacement. -/
def allowedChar (c : Char) : Bool := isLowerDigit c || c == '-'

/-- `sanitizeName`. -/
def sanitizeName (name : String) : String :=
  ⟨((name.data.map jsLowerChar).flatten).map (fun c => if allowedChar c then c else '-')⟩

/-! ## `parsePackageArchiveName` (`src/utils/manifest.ts`, lines 145–161)
and the archive name of `createPackages` (`src/package.ts`, line 124) -/

/-- The literal `.pkg` searched by `filename.replace('.pkg', '')`. -/
def pkgExt : List Char := ['.', 'p', 'k', 'g']

/-- JS `filename.replace('.pkg', '')`: remove the first occurrence of
`.pkg`, if any. -/
def removeFirstPkg : List Char → List Char
  | [] => []
  | c :: rest =>
    if isPrefixB pkgExt (c :: rest) then (c :: rest).drop pkgExt.length
    else c :: removeFirstPkg rest

/-- A line-terminator character, which `.` of the regex does not match. -/
def isLineTerm (c : Char) : Bool :=
  c == '\n' || c == '\r' || c.toNat == 0x2028 || c.toNat == 0x2029

/-- No line terminators (every character of a `/^(.+)-(\d+\.\d+\.\d+.*)$/`
match is consumed by `.`, `-`, `\d` or `\.`). -/
def noLineTerm (s : List Char) : Bool := s.all (fun c => !isLineTerm c)

/-- Strip one-or-more digits (`\d+`), or fail. -/
def dropDigits1 : List Char → Option (List Char)
  | [] => none
  | c :: rest => if c.isDigit then some (rest.dropWhile Char.isDigit) else none

/-- Expect a literal dot. -/
def expectDot : Option (List Char) → Option (List Char)
  | some ('.' :: r) => some r
  | _ => none

/-- The suffix matches `\d+\.\d+\.\d+` at its start (the `.*` tail is
handled by `noLineTerm` on the whole subject). -/
def digitTripleStart (s : List Char) : Bool :=
  match expectDot (dropDigits1 s) with
  | some r1 =>
    (match expectDot (dropDigits1 r1) with
     | some r2 => (dropDigits1 r2).isSome
     | none => false)
  | none => false

/-- Position `i` can serve as the group boundary of
`^(.+)-(\d+\.\d+\.\d+.*)$`: a hyphen with a nonempty prefix before it and a
digit triple after it. -/
def goodSplit (s : List Char) (i : Nat) : Bool :=
  decide (1 ≤ i) && (s[i]? == some '-') && digitTripleStart (s.drop (i + 1))

/-- Greedy `(.+)`: scan boundary candidates from the right, keeping the
first (largest) that matches. -/
def findSplitFrom (s : List Char) : Nat → Option Nat
  | 0 => none
  | i + 1 => if goodSplit s (i + 1) then some (i + 1) else findSplitFrom s i

/-- `parsePackageArchiveName(filename)`: strip the first `.pkg`, then match
`/^(.+)-(\d+\.\d+\.\d+.*)$/` and return `(name, version)`. -/
def parsePackageArchiveName (filename : String) : Option (String × String) :=
  let base := removeFirstPkg filename.data
  if noLineTerm base then
    match findSplitFrom base (base.length - 1) with
    | some i => some (⟨base.take i⟩, ⟨base.drop (i + 1)⟩)
    | none => none
  else none

/-- The archive file name `${manifest.pkgName}-${manifest.version}.pkg`
built by `createPackages` (`src/package.ts`, line 124). -/
def createArchiveName (pkgName version : String) : String :=
  pkgName ++ "-" ++ version ++ ".pkg"

example : parsePackageArchiveName "test-plugin-1.0.0.pkg" = some ("test-plugin", "1.0.0") := by
  decide
example :
    parsePackageArchiveName "test-plugin-1.0.0-beta.1.pkg" =
      some ("test-plugin", "1.0.0-beta.1") := by decide
example : parsePackageArchiveName "my-test-plugin-2.1.3.pkg" = some ("my-test-plugin", "2.1.3") := by
  decide
example : parsePackageArchiveName "invalid.pkg" = none := by decide
example : parsePackageArchiveName "no-version.pkg" = none := by decide
example : parsePackageArchiveName (createArchiveName "a" "1.2.3-4.5.6") =
    some ("a-1.2.3", "4.5.6") := by decide
example : parsePackageArchiveName (createArchiveName "a" "1.0.0-a.pkgb") =
    some ("a", "1.0.0-ab.pkg") := by decide
example : sanitizeName "Test_Plugin" = "test-plugin" := by decide
example : sanitizeName "test@plugin" = "test-plugin" := by decide
example : sanitizeName ⟨[Char.ofNat 0x130]⟩ = "i-" := by decide

/-! ## A defensive rendering of `validateManifest`

To settle the never-throws claim, each property access that JS would
perform on a possibly-`undefined` value without a guard is modelled as a
fallible `jsGetStr`; the guards of the source must then be shown to keep
every access safe. -/

/-- Dereference a possibly-undefined JS string (throws `TypeError` when it
is `undefined`). -/
def jsGetStr : Option String → Except String String
  | none => Except.error "TypeError: Cannot read properties of undefined"
  | some s => Except.ok s

/-- `cmdErrors` with the regex test `regex.test(cmd.name)` performed through
a fallible dereference; the source guards it with `cmd.name &&`. -/
def cmdErrorsE (i : Nat) (cmd : PackageCommand) : Except String (List String) := do
  let part3 ←
    if strFalsy cmd.name then pure []
    else do
      let n ← jsGetStr cmd.name
      pure (if !codeNamePattern n then [invalidCharsMsg n] else [])
  pure ((if strFalsy cmd.name then [missingNameMsg i] else []) ++
        (if strFalsy cmd.type then [missingTypeMsg cmd.name]
         else if validTypes.contains (showOpt cmd.type) then []
         else [invalidTypeMsg cmd.name (showOpt cmd.type)]) ++
        part3)

/-- The command loop with fallible per-command checks. -/
def cmdsErrorsE : Nat → List PackageCommand → Except String (List String)
  | _, [] => pure []
  | i, c :: rest => do
    let e ← cmdErrorsE i c
    let es ← cmdsErrorsE (i + 1) rest
    pure (e ++ es)

/-- `validateManifest` with `manifest.version.startsWith('v')` and the
per-command accesses performed through fallible dereferences; the source
guards the former with `!manifest.version` and the loop with
`if (manifest.cmds)`. -/
def validateManifestE (manifest : PackageManifest) : Except String ValidationResult := do
  let e2 ←
    if strFalsy manifest.version then pure [missingVersionMsg]
    else do
      let v ← jsGetStr manifest.version
      pure (if jsStartsWith v 'v' then [vPrefixMsg v]
            else if semverValid v then [] else [badSemverMsg v])
  let e4 ←
    match manifest.cmds with
    | none => pure []
    | some cs => cmdsErrorsE 0 cs
  let errors :=
    (if strFalsy manifest.pkgName then [missingPkgNameMsg] else []) ++ e2 ++
    (if cmdsMissingOrEmpty manifest.cmds then [missingCmdsMsg] else []) ++ e4
  pure { valid := errors.length == 0, errors := errors
         warnings := manifestWarnings manifest }

lemma cmdErrorsE_ok (i : Nat) (cmd : PackageCommand) :
    cmdErrorsE i cmd = Except.ok (cmdErrors i cmd) := by
  unfold cmdErrorsE cmdErrors
  cases hn : cmd.name with
  | none => rfl
  | some n =>
    cases hE : n.data.isEmpty with
    | true => simp [strFalsy, hE, showOpt, Bind.bind, Except.bind, pure, Except.pure]
    | false =>
      simp [strFalsy, hE, showOpt, jsGetStr, Bind.bind, Except.bind, pure, Except.pure]

lemma cmdsErrorsE_ok (k : Nat) (cs : List PackageCommand) :
    cmdsErrorsE k cs = Except.ok (cmdsErrors k cs) := by
  induction cs generalizing k with
  | nil => rfl
  | cons c rest ih =>
    unfold cmdsErrorsE cmdsErrors
    rw [cmdErrorsE_ok, ih]
    rfl

/-- C7: `validateManifest` is total and pure — even with every unguarded
JS property access modelled as fallible, it never reaches a `TypeError`
and always returns the `ValidationResult` computed by `validateManifest`. -/
theorem validateManifest_never_throws (manifest : PackageManifest) :
    validateManifestE manifest = Except.ok (validateManifest manifest) := by
  unfold validateManifestE validateManifest manifestErrors
  cases hv : manifest.version with
  | none =>
    cases hc : manifest.cmds with
    | none => rfl
    | some cs => simp [strFalsy, showOpt, Bind.bind, Except.bind, pure, Except.pure, cmdsErrorsE_ok]
  | some v =>
    cases hE : v.data.isEmpty with
    | true =>
      cases hc : manifest.cmds with
      | none => simp [strFalsy, hE, showOpt, Bind.bind, Except.bind, pure, Except.pure]
      | some cs =>
        simp [strFalsy, hE, showOpt, Bind.bind, Except.bind, pure, Except.pure, cmdsErrorsE_ok]
    | false =>
      cases hc : manifest.cmds with
      | none =>
        simp [strFalsy, hE, showOpt, jsGetStr, Bind.bind, Except.bind, pure, Except.pure]
      | some cs =>
        simp [strFalsy, hE, showOpt, jsGetStr, Bind.bind, Except.bind, pure, Except.pure,
          cmdsErrorsE_ok]

/-- C6: the `valid` flag of a `ValidationResult` returned by
`validateManifest` is true exactly when the `errors` list is empty, and the
metadata-driven warnings never affect it (changing `_metadata` arbitrarily
leaves `valid` unchanged). -/
theorem valid_iff_errors_empty (m : PackageManifest) :
    ((validateManifest m).valid = ((validateManifest m).errors.length == 0)) ∧
    ∀ md, (validateManifest { m with _metadata := md }).valid = (validateManifest m).valid :=
  ⟨rfl, fun _ => rfl⟩

/-! ## Exhaustiveness and warning behaviour of `validateManifest` -/

lemma isEmpty_false_of_jsStartsWith {v : String} {c : Char} (h : jsStartsWith v c = true) :
    v.data.isEmpty = false := by
  unfold jsStartsWith at h
  cases hd : v.data with
  | nil => rw [hd] at h; simp at h
  | cons a b => rfl

lemma isEmpty_false_of_semverValid {v : String} (h : semverValid v = true) :
    v.data.isEmpty = false := by
  cases hd : v.data with
  | nil =>
    unfold semverValid at h
    rw [hd] at h
    simp [mainOk] at h
  | cons a b => rfl

/-- C5: `validateManifest` is exhaustive, not fail-fast — a manifest that
simultaneously misses `pkgName`, carries a `v`-prefixed version and has an
empty or missing command list receives exactly one error per violated rule,
in rule order. -/
theorem validateManifest_exhaustive (m : PackageManifest) (v : String)
    (h1 : strFalsy m.pkgName = true) (h2 : m.version = some v)
    (h3 : jsStartsWith v 'v' = true) (h4 : cmdsMissingOrEmpty m.cmds = true) :
    (validateManifest m).errors = [missingPkgNameMsg, vPrefixMsg v, missingCmdsMsg] := by
  have hvne : v.data.isEmpty = false := isEmpty_false_of_jsStartsWith h3
  show manifestErrors m = _
  unfold manifestErrors
  rw [h1, h2]
  cases hc : m.cmds with
  | none => simp [strFalsy, hvne, showOpt, h3, cmdsMissingOrEmpty]
  | some cs =>
    rw [hc] at h4
    have hnil : cs = [] := by
      unfold cmdsMissingOrEmpty at h4
      exact List.length_eq_zero.mp (by simpa using h4)
    subst hnil
    simp [strFalsy, hvne, showOpt, h3, cmdsMissingOrEmpty, cmdsErrors]

def manifestC5 : PackageManifest :=
  { pkgName := none, version := some "v1.0.0", cmds := some [], _metadata := none }

/-- Witness for C5 at a concrete three-defect manifest. -/
theorem validateManifest_exhaustive_witness :
    (validateManifest manifestC5).errors =
      [missingPkgNameMsg, vPrefixMsg "v1.0.0", missingCmdsMsg] :=
  validateManifest_exhaustive manifestC5 "v1.0.0" rfl rfl rfl rfl

lemma cmdErrors_eq_nil (i : Nat) (c : PackageCommand)
    (h1 : ∃ n, c.name = some n ∧ codeNamePattern n = true)
    (h2 : ∃ t, c.type = some t ∧ validTypes.contains t = true) :
    cmdErrors i c = [] := by
  obtain ⟨n, hn, hp⟩ := h1
  obtain ⟨t, ht, hc⟩ := h2
  have hnne : n.data.isEmpty = false := by
    unfold codeNamePattern at hp
    cases hd : n.data with
    | nil => rw [hd] at hp; simp at hp
    | cons a b => rfl
  have htne : t.data.isEmpty = false := by
    have hmem : t = "executable" ∨ t = "alias" ∨ t = "group" := by
      unfold validTypes at hc
      simpa using hc
    rcases hmem with h | h | h <;> subst h <;> rfl
  have hmem : t ∈ validTypes := by
    unfold validTypes
    unfold validTypes at hc
    simpa using hc
  unfold cmdErrors
  rw [hn, ht]
  simp [strFalsy, hnne, htne, showOpt, hp, hmem]

lemma cmdsErrors_eq_nil (k : Nat) (cs : List PackageCommand)
    (h : ∀ c ∈ cs, (∃ n, c.name = some n ∧ codeNamePattern n = true) ∧
                   (∃ t, c.type = some t ∧ validTypes.contains t = true)) :
    cmdsErrors k cs = [] := by
  induction cs generalizing k with
  | nil => rfl
  | cons c rest ih =>
    have hc := h c (List.mem_cons_self c rest)
    unfold cmdsErrors
    rw [cmdErrors_eq_nil k c hc.1 hc.2, ih (k + 1) (fun x hx => h x (List.mem_cons_of_mem c hx))]
    rfl

/-- C8: a manifest with no `_metadata` record that is otherwise valid
(truthy `pkgName`, `v`-free valid-semver version, a nonempty command list
whose commands all have pattern-conforming names and recognised types) is
reported valid with exactly the three metadata warnings, in order: author,
license, repository. -/
theorem missing_metadata_three_warnings (m : PackageManifest) (v : String)
    (cs : List PackageCommand)
    (hmeta : m._metadata = none)
    (hname : strFalsy m.pkgName = false)
    (hver : m.version = some v)
    (hnv : jsStartsWith v 'v' = false)
    (hsem : semverValid v = true)
    (hcmds : m.cmds = some cs)
    (hne : cs ≠ [])
    (hcmd : ∀ c ∈ cs, (∃ n, c.name = some n ∧ codeNamePattern n = true) ∧
                      (∃ t, c.type = some t ∧ validTypes.contains t = true)) :
    (validateManifest m).valid = true ∧
    (validateManifest m).warnings = [warnAuthorMsg, warnLicenseMsg, warnRepositoryMsg] := by
  have hvne : v.data.isEmpty = false := isEmpty_false_of_semverValid hsem
  have hlen : (cs.length == 0) = false := by
    cases cs with
    | nil => exact absurd rfl hne
    | cons a b => rfl
  have herr : manifestErrors m = [] := by
    unfold manifestErrors
    rw [hver, hcmds, hname]
    simp [strFalsy, hvne, showOpt, hnv, hsem, cmdsMissingOrEmpty, hlen,
      cmdsErrors_eq_nil 0 cs hcmd]
  refine ⟨?_, ?_⟩
  · show ((manifestErrors m).length == 0) = true
    rw [herr]
    rfl
  · show manifestWarnings m = _
    unfold manifestWarnings
    rw [hmeta]
    rfl

def manifestC8 : PackageManifest :=
  { pkgName := some "test-plugin", version := some "1.0.0"
    cmds := some [{ name := some "test", type := some "executable" }]
    _metadata := none }

/-- Witness for C8 at a concrete metadata-free but otherwise valid
manifest. -/
theorem missing_metadata_three_warnings_witness :
    (validateManifest manifestC8).valid = true ∧
    (validateManifest manifestC8).warnings = [warnAuthorMsg, warnLicenseMsg, warnRepositoryMsg] :=
  missing_metadata_three_warnings manifestC8 "1.0.0"
    [{ name := some "test", type := some "executable" }]
    rfl rfl rfl rfl (by decide) rfl (by decide)
    (by
      intro c hc
      simp at hc
      subst hc
      exact ⟨⟨"test", rfl, by decide⟩, ⟨"executable", rfl, by decide⟩⟩)

/-! ## Version-related errors are mutually exclusive (C3) -/

/-- String extensionality via the underlying character list. -/
lemma strExt {a b : String} (h : a.data = b.data) : a = b := by
  cases a
  cases b
  cases h
  rfl

/-- A string is a version-related error of `validateManifest`: it starts
with `Invalid version format: ` (the common prefix of the two version-format
messages) or is the missing-version message. -/
def versionErrorB (e : String) : Bool :=
  isPrefixB invalidVersionPre.data e.data || e == missingVersionMsg

lemma isPrefixB_self_append (p r : List Char) : isPrefixB p (p ++ r) = true := by
  induction p with
  | nil => rfl
  | cons a as ih => simp [isPrefixB, ih]

lemma versionErrorB_vPrefixMsg (v : String) : versionErrorB (vPrefixMsg v) = true := by
  unfold versionErrorB vPrefixMsg
  rw [String.data_append, String.data_append, List.append_assoc]
  simp [isPrefixB_self_append]

lemma versionErrorB_false_of_headC {e : String} (h : e.data.head? = some 'C') :
    versionErrorB e = false := by
  unfold versionErrorB
  cases hd : e.data with
  | nil => rw [hd] at h; simp at h
  | cons c t =>
    rw [hd] at h
    have hc : c = 'C' := by simpa using h
    subst hc
    have h1 : isPrefixB invalidVersionPre.data ('C' :: t) = false := rfl
    have h2 : (e == missingVersionMsg) = false := by
      apply beq_eq_false_iff_ne.mpr
      intro he
      rw [he] at hd
      have hm : missingVersionMsg.data.head? = some 'M' := rfl
      rw [hd] at hm
      simp at hm
    rw [h1, h2]
    rfl

/-- Every error emitted for a command is one of the four `Command ...`
message shapes. -/
lemma mem_cmdErrors_shapes {x : String} {i : Nat} {cmd : PackageCommand}
    (h : x ∈ cmdErrors i cmd) :
    x = missingNameMsg i ∨ x = missingTypeMsg cmd.name ∨
    (∃ t, x = invalidTypeMsg cmd.name t) ∨
    (∃ n, cmd.name = some n ∧ n.data.isEmpty = false ∧ codeNamePattern n = false ∧
      x = invalidCharsMsg n) := by
  unfold cmdErrors at h
  rcases List.mem_append.mp h with h | h
  · rcases List.mem_append.mp h with h | h
    · left
      split at h <;> simp_all
    · right
      split at h
      · left
        simpa using h
      · split at h
        · simp at h
        · right; left
          exact ⟨showOpt cmd.type, by simpa using h⟩
  · right; right; right
    by_cases hcond : (!strFalsy cmd.name && !codeNamePattern (showOpt cmd.name)) = true
    · cases hn : cmd.name with
      | none => rw [hn] at hcond; simp [strFalsy] at hcond
      | some n =>
        rw [hn] at hcond
        rw [hn] at h
        simp only [hcond, if_true] at h
        have hparts := hcond
        rw [Bool.and_eq_true] at hparts
        refine ⟨n, rfl, ?_, ?_, by simpa [showOpt] using h⟩
        · simpa [strFalsy] using hparts.1
        · simpa [showOpt] using hparts.2
    · rw [Bool.not_eq_true] at hcond
      rw [hcond] at h
      simp at h

lemma headC_of_cmdErrors_shape {x : String} {i : Nat} {cmd : PackageCommand}
    (h : x ∈ cmdErrors i cmd) : x.data.head? = some 'C' := by
  rcases mem_cmdErrors_shapes h with h | h | ⟨t, h⟩ | ⟨n, _, _, _, h⟩ <;> subst h
  · exact rfl
  · cases cmd.name <;> rfl
  · cases cmd.name <;> rfl
  · exact rfl

lemma countP_versionError_cmdsErrors (k : Nat) (cs : List PackageCommand) :
    List.countP versionErrorB (cmdsErrors k cs) = 0 := by
  induction cs generalizing k with
  | nil => rfl
  | cons c rest ih =>
    unfold cmdsErrors
    rw [List.countP_append, ih (k + 1)]
    have : List.countP versionErrorB (cmdErrors k c) = 0 :=
      List.countP_eq_zero.mpr (fun e he => by
        rw [versionErrorB_false_of_headC (headC_of_cmdErrors_shape he)]
        exact Bool.false_ne_true)
    rw [this]

/-- C3: a manifest whose version is present and starts with `v` receives
exactly one version-related error — the `v`-prefix message — and never the
generic semver message as well. -/
theorem vprefix_exactly_one_version_error (m : PackageManifest) (v : String)
    (hv : m.version = some v) (hs : jsStartsWith v 'v' = true) :
    List.countP versionErrorB (validateManifest m).errors = 1 ∧
    vPrefixMsg v ∈ (validateManifest m).errors := by
  have hvne : v.data.isEmpty = false := isEmpty_false_of_jsStartsWith hs
  show List.countP versionErrorB (manifestErrors m) = 1 ∧ vPrefixMsg v ∈ manifestErrors m
  unfold manifestErrors
  rw [hv]
  have hchunk2 :
      (if strFalsy (some v) then [missingVersionMsg]
       else if jsStartsWith (showOpt (some v)) 'v' then [vPrefixMsg (showOpt (some v))]
       else if semverValid (showOpt (some v)) then []
       else [badSemverMsg (showOpt (some v))]) = [vPrefixMsg v] := by
    simp [strFalsy, hvne, showOpt, hs]
  rw [hchunk2]
  constructor
  · rw [List.countP_append, List.countP_append, List.countP_append]
    have c1 : List.countP versionErrorB
        (if strFalsy m.pkgName then [missingPkgNameMsg] else []) = 0 := by
      split
      · decide
      · rfl
    have c2 : List.countP versionErrorB [vPrefixMsg v] = 1 := by
      rw [List.countP_cons, versionErrorB_vPrefixMsg]
      rfl
    have c3 : List.countP versionErrorB
        (if cmdsMissingOrEmpty m.cmds then [missingCmdsMsg] else []) = 0 := by
      split
      · decide
      · rfl
    have c4 : List.countP versionErrorB
        (match m.cmds with | none => [] | some cs => cmdsErrors 0 cs) = 0 := by
      cases m.cmds with
      | none => rfl
      | some cs => exact countP_versionError_cmdsErrors 0 cs
    rw [c1, c2, c3, c4]
  · simp [List.mem_append]

def manifestC3 : PackageManifest :=
  { pkgName := some "x", version := some "v1.2.3"
    cmds := some [{ name := some "x", type := some "executable" }], _metadata := none }

/-- Witness for C3 at a concrete manifest with a `v`-prefixed version. -/
theorem vprefix_exactly_one_version_error_witness :
    List.countP versionErrorB (validateManifest manifestC3).errors = 1 ∧
    vPrefixMsg "v1.2.3" ∈ (validateManifest manifestC3).errors :=
  vprefix_exactly_one_version_error manifestC3 "v1.2.3" rfl rfl

/-! ## The command-name pattern actually enforced (C2) -/

lemma invalidCharsMsg_inj {a b : String} (h : invalidCharsMsg a = invalidCharsMsg b) : a = b := by
  unfold invalidCharsMsg at h
  have hd := congrArg String.data h
  rw [String.data_append, String.data_append, String.data_append, String.data_append,
    List.append_assoc, List.append_assoc] at hd
  exact strExt (List.append_cancel_right (List.append_cancel_left hd))

lemma string_ne_of_head {a b : String} {p q : Char}
    (ha : a.data.head? = some p) (hb : b.data.head? = some q) (hc : p ≠ q) : a ≠ b := by
  intro he
  rw [he, hb] at ha
  exact hc (by simpa using ha.symm)

lemma string_ne_of_get8 {a b : String} {p q : Char}
    (ha : a.data.get? 8 = some p) (hb : b.data.get? 8 = some q) (hc : p ≠ q) : a ≠ b := by
  intro he
  rw [he, hb] at ha
  exact hc (by simpa using ha.symm)

lemma icm_ne_missingPkgNameMsg (n : String) : invalidCharsMsg n ≠ missingPkgNameMsg :=
  string_ne_of_head (p := 'C') (q := 'M') rfl rfl (by decide)

lemma icm_ne_missingVersionMsg (n : String) : invalidCharsMsg n ≠ missingVersionMsg :=
  string_ne_of_head (p := 'C') (q := 'M') rfl rfl (by decide)

lemma icm_ne_missingCmdsMsg (n : String) : invalidCharsMsg n ≠ missingCmdsMsg :=
  string_ne_of_head (p := 'C') (q := 'M') rfl rfl (by decide)

lemma icm_ne_vPrefixMsg (n v : String) : invalidCharsMsg n ≠ vPrefixMsg v :=
  string_ne_of_head (p := 'C') (q := 'I') rfl rfl (by decide)

lemma icm_ne_badSemverMsg (n v : String) : invalidCharsMsg n ≠ badSemverMsg v :=
  string_ne_of_head (p := 'C') (q := 'I') rfl rfl (by decide)

lemma icm_ne_missingNameMsg (n : String) (i : Nat) : invalidCharsMsg n ≠ missingNameMsg i :=
  string_ne_of_get8 (p := 'n') (q := 'a') rfl rfl (by decide)

lemma icm_ne_missingTypeMsg (n : String) (nm : Option String) :
    invalidCharsMsg n ≠ missingTypeMsg nm := by
  cases nm <;> exact string_ne_of_get8 (p := 'n') (q := '\x27') rfl rfl (by decide)

lemma icm_ne_invalidTypeMsg (n : String) (nm : Option String) (t : String) :
    invalidCharsMsg n ≠ invalidTypeMsg nm t := by
  cases nm <;> exact string_ne_of_get8 (p := 'n') (q := '\x27') rfl rfl (by decide)

lemma mem_cmdsErrors_elim {x : String} {cs : List PackageCommand} :
    ∀ {k}, x ∈ cmdsErrors k cs → ∃ j cmd, cs[j]? = some cmd ∧ x ∈ cmdErrors (k + j) cmd := by
  induction cs with
  | nil => intro k h; simp [cmdsErrors] at h
  | cons c rest ih =>
    intro k h
    rw [show cmdsErrors k (c :: rest) = cmdErrors k c ++ cmdsErrors (k + 1) rest from rfl] at h
    rcases List.mem_append.mp h with h | h
    · exact ⟨0, c, by simp, h⟩
    · obtain ⟨j, cmd, hj, hm⟩ := ih h
      refine ⟨j + 1, cmd, by simpa using hj, ?_⟩
      have he : k + 1 + j = k + (j + 1) := by omega
      rwa [he] at hm

lemma mem_cmdsErrors_intro {x : String} {cs : List PackageCommand} :
    ∀ {k j cmd}, cs[j]? = some cmd → x ∈ cmdErrors (k + j) cmd → x ∈ cmdsErrors k cs := by
  induction cs with
  | nil => intro k j cmd hj _; simp at hj
  | cons c rest ih =>
    intro k j cmd hj hm
    rw [show cmdsErrors k (c :: rest) = cmdErrors k c ++ cmdsErrors (k + 1) rest from rfl]
    cases j with
    | zero =>
      have hc : c = cmd := by simpa using hj
      subst hc
      exact List.mem_append_left _ hm
    | succ j' =>
      have hj' : rest[j']? = some cmd := by simpa using hj
      have he : k + (j' + 1) = k + 1 + j' := by omega
      rw [he] at hm
      exact List.mem_append_right _ (ih hj' hm)

/-- C2 (amended): a present, nonempty command name is flagged with the
`invalid characters` error exactly when it fails the regex actually tested
by the source, `/^[a-z0-9-]+$/` — not the stricter segmented pattern
`^[a-z0-9]+(-[a-z0-9]+)*$` stated by the specification. -/
theorem cmdName_flagged_iff_codePattern (m : PackageManifest) (cs : List PackageCommand)
    (i : Nat) (cmd : PackageCommand) (n : String)
    (hcs : m.cmds = some cs) (hi : cs[i]? = some cmd) (hn : cmd.name = some n)
    (hne : n.data.isEmpty = false) :
    invalidCharsMsg n ∈ (validateManifest m).errors ↔ codeNamePattern n = false := by
  constructor
  · intro h
    change invalidCharsMsg n ∈ manifestErrors m at h
    unfold manifestErrors at h
    rcases List.mem_append.mp h with h | h
    · rcases List.mem_append.mp h with h | h
      · rcases List.mem_append.mp h with h | h
        · split at h
          · exact absurd (by simpa using h) (icm_ne_missingPkgNameMsg n)
          · simp at h
        · split at h
          · exact absurd (by simpa using h) (icm_ne_missingVersionMsg n)
          · split at h
            · exact absurd (by simpa using h) (icm_ne_vPrefixMsg n _)
            · split at h
              · simp at h
              · exact absurd (by simpa using h) (icm_ne_badSemverMsg n _)
      · split at h
        · exact absurd (by simpa using h) (icm_ne_missingCmdsMsg n)
        · simp at h
    · have h' : invalidCharsMsg n ∈ cmdsErrors 0 cs := by rw [hcs] at h; exact h
      obtain ⟨j, cmd', _, hm⟩ := mem_cmdsErrors_elim h'
      rcases mem_cmdErrors_shapes hm with hsh | hsh | ⟨t, hsh⟩ | ⟨n', _, _, hpat', hsh⟩
      · exact absurd hsh (icm_ne_missingNameMsg n _)
      · exact absurd hsh (icm_ne_missingTypeMsg n _)
      · exact absurd hsh (icm_ne_invalidTypeMsg n _ t)
      · rw [invalidCharsMsg_inj hsh]
        exact hpat'
  · intro hpat
    change invalidCharsMsg n ∈ manifestErrors m
    unfold manifestErrors
    refine List.mem_append.mpr (Or.inr ?_)
    rw [hcs]
    show invalidCharsMsg n ∈ cmdsErrors 0 cs
    have hmem : invalidCharsMsg n ∈ cmdErrors (0 + i) cmd := by
      have hC : (if !strFalsy cmd.name && !codeNamePattern (showOpt cmd.name)
                 then [invalidCharsMsg (showOpt cmd.name)] else []) = [invalidCharsMsg n] := by
        rw [hn]
        simp [strFalsy, showOpt, hne, hpat]
      unfold cmdErrors
      refine List.mem_append_right _ ?_
      rw [hC]
      exact List.mem_singleton_self _
    exact mem_cmdsErrors_intro hi hmem

def manifestC2 : PackageManifest :=
  { pkgName := some "x", version := some "1.0.0"
    cmds := some [{ name := some "-", type := some "executable" }], _metadata := none }

/-- C2 counterexample: `-`, `a-` and `a--b` all fail the spec's pattern
`^[a-z0-9]+(-[a-z0-9]+)*$`, yet a manifest whose command is named `-`
validates with no error at all, because the source tests `/^[a-z0-9-]+$/`,
which accepts them. -/
theorem cmdName_pattern_cex :
    specNamePattern "-" = false ∧ specNamePattern "a-" = false ∧
    specNamePattern "a--b" = false ∧ codeNamePattern "-" = true ∧
    (validateManifest manifestC2).errors = [] := by decide

def manifestC2w : PackageManifest :=
  { pkgName := some "x", version := some "1.0.0"
    cmds := some [{ name := some "Bad_Name", type := some "executable" }], _metadata := none }

/-- Witness for the amended C2 at a concrete uppercase-and-underscore
command name. -/
theorem cmdName_flagged_iff_codePattern_witness :
    invalidCharsMsg "Bad_Name" ∈ (validateManifest manifestC2w).errors :=
  (cmdName_flagged_iff_codePattern manifestC2w
      [{ name := some "Bad_Name", type := some "executable" }] 0
      { name := some "Bad_Name", type := some "executable" } "Bad_Name"
      rfl rfl rfl rfl).mpr (by decide)

/-! ## Batch validation (C4) -/

lemma processDirs_spec (readM : String → Except String PackageManifest) (dirs : List String) :
    (processDirs readM dirs).validPackages =
      (dirs.filter (fun x => dirValid readM x)).map basename ∧
    (processDirs readM dirs).invalidPackages =
      (dirs.filter (fun x => !dirValid readM x)).map basename ∧
    (processDirs readM dirs).totalErrors = (dirs.map (fun x => dirErrCount readM x)).sum ∧
    (processDirs readM dirs).validPackages.length +
      (processDirs readM dirs).invalidPackages.length = dirs.length := by
  induction dirs with
  | nil => exact ⟨rfl, rfl, rfl, rfl⟩
  | cons d rest ih =>
    obtain ⟨ih1, ih2, ih3, ih4⟩ := ih
    refine ⟨?_, ?_, ?_, ?_⟩
    · cases hv : (dirOutcome readM d).1 with
      | true => simp [processDirs, List.filter_cons, dirValid, hv, ih1]
      | false => simp [processDirs, List.filter_cons, dirValid, hv, ih1]
    · cases hv : (dirOutcome readM d).1 with
      | true => simp [processDirs, List.filter_cons, dirValid, hv, ih2]
      | false => simp [processDirs, List.filter_cons, dirValid, hv, ih2]
    · simp [processDirs, dirErrCount, ih3]
    · cases hv : (dirOutcome readM d).1 with
      | true =>
        simp [processDirs, hv]
        omega
      | false =>
        simp [processDirs, hv]
        omega

/-- C4: given the resolver's directory list, the batch pass aborts exactly
when the list is empty; otherwise every directory is processed — each one
recorded, by base name, as valid or invalid according to its own
read/validation outcome, with its errors counted — and `run` fails the
batch exactly when at least one directory ended up invalid. -/
theorem validatePackages_batch (fs : FS) (readM : String → Except String PackageManifest)
    (d : String) (dirs : List String)
    (h : findPackageDirectories fs d = Except.ok dirs) :
    (dirs = [] → validatePackages fs readM d = Except.error (noPackagesFoundMsg d)) ∧
    (dirs ≠ [] → ∃ r, validatePackages fs readM d = Except.ok r ∧
      r.validPackages = (dirs.filter (fun x => dirValid readM x)).map basename ∧
      r.invalidPackages = (dirs.filter (fun x => !dirValid readM x)).map basename ∧
      r.totalErrors = (dirs.map (fun x => dirErrCount readM x)).sum ∧
      r.validPackages.length + r.invalidPackages.length = dirs.length ∧
      (runValidationStep fs readM d = Except.ok r ↔ r.invalidPackages = [])) := by
  constructor
  · intro hnil
    subst hnil
    unfold validatePackages
    rw [h]
    rfl
  · intro hne
    have hlen : (dirs.length == 0) = false := by
      cases dirs with
      | nil => exact absurd rfl hne
      | cons a b => rfl
    have hval : validatePackages fs readM d = Except.ok (processDirs readM dirs) := by
      unfold validatePackages
      rw [h]
      simp [hlen]
    obtain ⟨s1, s2, s3, s4⟩ := processDirs_spec readM dirs
    refine ⟨processDirs readM dirs, hval, s1, s2, s3, s4, ?_⟩
    unfold runValidationStep
    rw [hval]
    by_cases hinv : (processDirs readM dirs).invalidPackages = []
    · simp [hinv]
    · have hp : 0 < (processDirs readM dirs).invalidPackages.length := List.length_pos.mpr hinv
      simp [hp, hinv]

def fsC4 : FS :=
  { pathExists := fun p => p == "pkgs/a/manifest.mf" || p == "pkgs/b/manifest.mf"
    readdir := fun p =>
      if p = "pkgs" then Except.ok [{ name := "a", isDir := true }, { name := "b", isDir := true }]
      else Except.error "ENOENT" }

def readC4 : String → Except String PackageManifest := fun dir =>
  if dir = "pkgs/a" then
    Except.ok { pkgName := some "a-plugin", version := some "1.0.0"
                cmds := some [{ name := some "run", type := some "executable" }]
                _metadata := none }
  else Except.error "Failed to read manifest"

/-- Witness for C4: two resolved directories, one readable and valid, the
other failing to read — both are recorded and the one failure is counted. -/
theorem validatePackages_batch_witness :
    ∃ r, validatePackages fsC4 readC4 "pkgs" = Except.ok r ∧
      r.validPackages = ["a"] ∧ r.invalidPackages = ["b"] ∧ r.totalErrors = 1 := by
  obtain ⟨-, h2⟩ := validatePackages_batch fsC4 readC4 "pkgs" ["pkgs/a", "pkgs/b"] rfl
  obtain ⟨r, hr, hv, hi, he, -, -⟩ := h2 (by simp)
  refine ⟨r, hr, ?_, ?_, ?_⟩
  · rw [hv]; rfl
  · rw [hi]; rfl
  · rw [he]; rfl

/-! ## Resolver behaviour under an explicit hint (C1) -/

lemma pathJoin_ne_left (hint nm : String) (h1 : hint ≠ "") (h2 : hint ≠ ".") :
    pathJoin hint nm ≠ hint := by
  unfold pathJoin
  rw [if_neg h1, if_neg h2]
  intro he
  have hlen : (hint ++ "/" ++ nm).data.length = hint.data.length := by rw [he]
  rw [String.data_append, String.data_append, List.length_append, List.length_append] at hlen
  have hone : ("/".data).length = 1 := rfl
  omega

/-- C1 (amended): under a non-empty hint other than `.`, the resolver first
checks the hinted directory itself: when `hint/manifest.mf` exists it
returns `[hint]` (single-package mode on the hinted directory — the current
working directory's root manifest is never consulted); only when it does
not exist does it return exactly the immediate subdirectory entries of the
hinted directory that directly contain `manifest.mf`, a list that never
includes the hinted directory itself. -/
theorem findPackageDirectories_explicit_hint (fs : FS) (hint : String) (entries : List FSEntry)
    (h1 : hint ≠ "") (h2 : hint ≠ ".") :
    (fs.pathExists (pathJoin hint "manifest.mf") = true →
      findPackageDirectories fs hint = Except.ok [hint]) ∧
    (fs.pathExists (pathJoin hint "manifest.mf") = false →
      fs.readdir hint = Except.ok entries →
      findPackageDirectories fs hint =
        Except.ok (entries.filterMap (fun entry =>
          if entry.isDir && fs.pathExists (pathJoin (pathJoin hint entry.name) "manifest.mf")
          then some (pathJoin hint entry.name) else none)) ∧
      hint ∉ entries.filterMap (fun entry =>
          if entry.isDir && fs.pathExists (pathJoin (pathJoin hint entry.name) "manifest.mf")
          then some (pathJoin hint entry.name) else none)) := by
  have htarget : (if hint = "" || hint = "." then "." else hint) = hint := by
    simp [h1, h2]
  constructor
  · intro hex
    unfold findPackageDirectories
    rw [htarget]
    simp [hex]
  · intro hex hrd
    constructor
    · unfold findPackageDirectories
      rw [htarget]
      simp [hex, hrd]
    · intro hmem
      obtain ⟨entry, -, he⟩ := List.mem_filterMap.mp hmem
      split at he
      · exact pathJoin_ne_left hint entry.name h1 h2 (by simpa using he)
      · simp at he

def fsC1 : FS :=
  { pathExists := fun p => p == "packages/manifest.mf" || p == "packages/sub/manifest.mf"
    readdir := fun p =>
      if p = "packages" then Except.ok [{ name := "sub", isDir := true }]
      else Except.error "ENOENT" }

/-- C1 counterexample: with the non-empty hint `packages`, a `manifest.mf`
directly inside the hinted directory makes the resolver return the hinted
directory itself — not its subdirectory `packages/sub`, which also holds a
`manifest.mf`. -/
theorem findPackageDirectories_hint_cex :
    ("packages" : String) ≠ "" ∧ ("packages" : String) ≠ "." ∧
    fsC1.pathExists (pathJoin (pathJoin "packages" "sub") "manifest.mf") = true ∧
    fsC1.readdir "packages" = Except.ok [{ name := "sub", isDir := true }] ∧
    findPackageDirectories fsC1 "packages" = Except.ok ["packages"] :=
  ⟨by decide, by decide, rfl, rfl, rfl⟩

def fsC1w : FS :=
  { pathExists := fun p => p == "pk/a/manifest.mf"
    readdir := fun p =>
      if p = "pk" then
        Except.ok [{ name := "a", isDir := true }, { name := "b", isDir := true },
          { name := "c.txt", isDir := false }]
      else Except.error "ENOENT" }

/-- Witness for the amended C1: hint `pk` without a root manifest resolves
to exactly the manifest-bearing subdirectory `pk/a`. -/
theorem findPackageDirectories_explicit_hint_witness :
    findPackageDirectories fsC1w "pk" = Except.ok ["pk/a"] ∧ ("pk" : String) ∉ ["pk/a"] := by
  obtain ⟨-, h2⟩ :=
    findPackageDirectories_explicit_hint fsC1w "pk"
      [{ name := "a", isDir := true }, { name := "b", isDir := true },
        { name := "c.txt", isDir := false }]
      (by decide) (by decide)
  obtain ⟨hr, hnm⟩ := h2 rfl rfl
  exact ⟨by rw [hr]; rfl, hnm⟩

/-! ## `sanitizeName` (C10) -/

lemma isDigit_bounds {c : Char} (h : c.isDigit = true) : 48 ≤ c.toNat ∧ c.toNat ≤ 57 := by
  unfold Char.isDigit at h
  simp [Bool.and_eq_true] at h
  exact ⟨h.1, h.2⟩

lemma allowed_bounds {c : Char} (h : allowedChar c = true) :
    c.toNat ≠ 0x130 ∧ ¬(65 ≤ c.toNat ∧ c.toNat ≤ 90) := by
  unfold allowedChar isLowerDigit at h
  simp only [Bool.or_eq_true, Bool.and_eq_true, decide_eq_true_eq, beq_iff_eq] at h
  rcases h with (hd | hr) | hh
  · have := isDigit_bounds hd
    omega
  · omega
  · subst hh
    refine ⟨by decide, ?_⟩
    intro hx
    have : ('-').toNat = 45 := rfl
    omega

lemma toLower_eq_self_of_allowed {c : Char} (h : allowedChar c = true) : Char.toLower c = c := by
  unfold Char.toLower
  rw [if_neg (allowed_bounds h).2]

lemma jsLowerChar_allowed {c : Char} (h : allowedChar c = true) : jsLowerChar c = [c] := by
  unfold jsLowerChar
  rw [beq_eq_false_iff_ne.mpr (allowed_bounds h).1, if_neg (by simp), toLower_eq_self_of_allowed h]

lemma flatten_map_single (l : List Char) : (l.map (fun c => [c])).flatten = l := by
  induction l <;> simp_all

lemma flatten_lower_length (l : List Char) (h : ∀ c ∈ l, c.toNat ≠ 0x130) :
    ((l.map jsLowerChar).flatten).length = l.length := by
  induction l with
  | nil => rfl
  | cons c rest ih =>
    have hc : (c.toNat == 0x130) = false :=
      beq_eq_false_iff_ne.mpr (h c (List.mem_cons_self c rest))
    simp [jsLowerChar, hc, ih (fun x hx => h x (List.mem_cons_of_mem c hx))]

/-- C10 (amended): `sanitizeName` always produces a string over the
alphabet `[a-z0-9-]` and is idempotent; it preserves length on every input
that avoids U+0130, the one character whose JS `toLowerCase` image has two
characters (so length preservation fails exactly there, not in general). -/
theorem sanitizeName_properties (s : String) :
    (∀ c ∈ (sanitizeName s).data, allowedChar c = true) ∧
    sanitizeName (sanitizeName s) = sanitizeName s ∧
    ((∀ c ∈ s.data, c.toNat ≠ 0x130) → (sanitizeName s).data.length = s.data.length) := by
  have hall : ∀ c ∈ (sanitizeName s).data, allowedChar c = true := by
    intro c hc
    obtain ⟨x, -, hx⟩ := List.mem_map.mp hc
    rw [← hx]
    by_cases hax : allowedChar x = true
    · simp [hax]
    · rw [Bool.not_eq_true] at hax
      simp [hax]
      decide
  refine ⟨hall, ?_, ?_⟩
  · show (⟨((((sanitizeName s).data).map jsLowerChar).flatten).map
        (fun c => if allowedChar c then c else '-')⟩ : String) = sanitizeName s
    have h1 : ((sanitizeName s).data).map jsLowerChar =
        ((sanitizeName s).data).map (fun c => [c]) :=
      List.map_congr_left (fun a ha => jsLowerChar_allowed (hall a ha))
    rw [h1, flatten_map_single]
    have h2 : ((sanitizeName s).data).map (fun c => if allowedChar c then c else '-') =
        ((sanitizeName s).data).map id :=
      List.map_congr_left (fun a ha => by simp [hall a ha])
    rw [h2, List.map_id]
  · intro h
    show (((s.data.map jsLowerChar).flatten).map
        (fun c => if allowedChar c then c else '-')).length = s.data.length
    rw [List.length_map]
    exact flatten_lower_length s.data h

/-- C10 counterexample: on the one-character string U+0130 (LATIN CAPITAL
LETTER I WITH DOT ABOVE), whose JS `toLowerCase` is the two-character
`i` + combining dot above, `sanitizeName` returns the two-character `i-`,
so the output length differs from the input length. -/
theorem sanitizeName_length_cex :
    sanitizeName ⟨[Char.ofNat 0x130]⟩ = "i-" ∧
    (sanitizeName ⟨[Char.ofNat 0x130]⟩).data.length = 2 ∧
    ((⟨[Char.ofNat 0x130]⟩ : String)).data.length = 1 := by decide

/-- Witness for the amended C10 at a concrete mixed-case input. -/
theorem sanitizeName_properties_witness :
    (∀ c ∈ (sanitizeName "Test_Plugin").data, allowedChar c = true) ∧
    sanitizeName (sanitizeName "Test_Plugin") = sanitizeName "Test_Plugin" ∧
    (sanitizeName "Test_Plugin").data.length = ("Test_Plugin" : String).data.length := by
  obtain ⟨h1, h2, h3⟩ := sanitizeName_properties "Test_Plugin"
  exact ⟨h1, h2, h3 (by decide)⟩

/-! ## Archive-name round trip (C9): character classes -/

lemma class_toNat_facts {c : Char} (h : (isLowerDigit c || c == '-') = true) :
    c.toNat = 45 ∨ (48 ≤ c.toNat ∧ c.toNat ≤ 57) ∨ (97 ≤ c.toNat ∧ c.toNat ≤ 122) := by
  unfold isLowerDigit at h
  simp only [Bool.or_eq_true, Bool.and_eq_true, decide_eq_true_eq, beq_iff_eq] at h
  rcases h with (hd | hr) | hh
  · exact Or.inr (Or.inl (isDigit_bounds hd))
  · exact Or.inr (Or.inr hr)
  · subst hh
    exact Or.inl rfl

lemma nameClass_ne_dot {c : Char} (h : (isLowerDigit c || c == '-') = true) : c ≠ '.' := by
  intro he
  subst he
  exact absurd h (by decide)

lemma nameClass_notLT {c : Char} (h : (isLowerDigit c || c == '-') = true) :
    (!isLineTerm c) = true := by
  have hf := class_toNat_facts h
  unfold isLineTerm
  have b1 : (c == '\n') = false := beq_eq_false_iff_ne.mpr (fun he => by
    subst he; rcases hf with h1 | h1 | h1 <;> exact absurd h1 (by decide))
  have b2 : (c == '\r') = false := beq_eq_false_iff_ne.mpr (fun he => by
    subst he; rcases hf with h1 | h1 | h1 <;> exact absurd h1 (by decide))
  have b3 : (c.toNat == 8232) = false := beq_eq_false_iff_ne.mpr (fun he => by
    rcases hf with h1 | h1 | h1 <;> omega)
  have b4 : (c.toNat == 8233) = false := beq_eq_false_iff_ne.mpr (fun he => by
    rcases hf with h1 | h1 | h1 <;> omega)
  rw [b1, b2, b3, b4]
  rfl

lemma digit_ne {c : Char} (h : c.isDigit = true) : c ≠ '.' ∧ c ≠ 'p' ∧ c ≠ '-' := by
  refine ⟨?_, ?_, ?_⟩ <;> intro he <;> subst he <;> exact absurd h (by decide)

lemma digit_notLT {c : Char} (h : c.isDigit = true) : (!isLineTerm c) = true := by
  have hb := isDigit_bounds h
  unfold isLineTerm
  have b1 : (c == '\n') = false := beq_eq_false_iff_ne.mpr (fun he => by
    subst he; exact absurd h (by decide))
  have b2 : (c == '\r') = false := beq_eq_false_iff_ne.mpr (fun he => by
    subst he; exact absurd h (by decide))
  have b3 : (c.toNat == 8232) = false := beq_eq_false_iff_ne.mpr (fun he => by omega)
  have b4 : (c.toNat == 8233) = false := beq_eq_false_iff_ne.mpr (fun he => by omega)
  rw [b1, b2, b3, b4]
  rfl

/-- Every character matched by the spec's name pattern is a lowercase
letter, a digit or a hyphen (proved simultaneously for both states of the
pattern automaton). -/
lemma namePat_class (l : List Char) :
    (segPat l = true → ∀ c ∈ l, (isLowerDigit c || c == '-') = true) ∧
    (restPat l = true → ∀ c ∈ l, (isLowerDigit c || c == '-') = true) := by
  induction l with
  | nil => exact ⟨by simp, by simp⟩
  | cons a rest ih =>
    constructor
    · intro h c hc
      unfold segPat at h
      rw [Bool.and_eq_true] at h
      rcases List.mem_cons.mp hc with he | hc
      · subst he
        simp [h.1]
      · exact ih.2 h.2 c hc
    · intro h c hc
      unfold restPat at h
      cases hb : (a == '-') with
      | true =>
        rw [hb, if_pos rfl] at h
        rcases List.mem_cons.mp hc with he | hc
        · subst he
          simp [hb]
        · exact ih.1 h c hc
      | false =>
        rw [hb] at h
        simp only [Bool.false_eq_true, if_false, Bool.and_eq_true] at h
        rcases List.mem_cons.mp hc with he | hc
        · subst he
          simp [h.1]
        · exact ih.2 h.2 c hc

lemma segPat_ne_nil {l : List Char} (h : segPat l = true) : l ≠ [] := by
  intro he
  subst he
  exact absurd h (by decide)

/-! ## C9: `replace('.pkg', '')` removes exactly the final extension -/

/-- No proper suffix of the subject, other than the trailing extension
itself, starts with `.pkg`. -/
def noEarly : List Char → Prop
  | [] => True
  | c :: rest => isPrefixB pkgExt ((c :: rest) ++ pkgExt) = false ∧ noEarly rest

lemma isPrefixB_pkg_false_of_head {c : Char} (hc : c ≠ '.') (l : List Char) :
    isPrefixB pkgExt (c :: l) = false := by
  have hb : ('.' == c) = false := beq_eq_false_iff_ne.mpr (fun he => hc he.symm)
  show ('.' == c && isPrefixB ['p', 'k', 'g'] l) = false
  rw [hb]
  rfl

lemma isPrefixB_pkg_false_dot {d : Char} (hd : d ≠ 'p') (l : List Char) :
    isPrefixB pkgExt ('.' :: d :: l) = false := by
  have hb : ('p' == d) = false := beq_eq_false_iff_ne.mpr (fun he => hd he.symm)
  show ('.' == '.' && ('p' == d && isPrefixB ['k', 'g'] l)) = false
  rw [hb]
  rfl

lemma noEarly_of_class (ds : List Char) (h : ∀ c ∈ ds, c ≠ '.') : noEarly ds := by
  induction ds with
  | nil => trivial
  | cons c t ih =>
    exact ⟨isPrefixB_pkg_false_of_head (h c (List.mem_cons_self c t)) _,
      ih (fun x hx => h x (List.mem_cons_of_mem c hx))⟩

lemma noEarly_append (ds : List Char) (h : ∀ c ∈ ds, c ≠ '.') (rest : List Char)
    (hr : noEarly rest) : noEarly (ds ++ rest) := by
  induction ds with
  | nil => exact hr
  | cons c t ih =>
    exact ⟨isPrefixB_pkg_false_of_head (h c (List.mem_cons_self c t)) _,
      ih (fun x hx => h x (List.mem_cons_of_mem c hx))⟩

lemma noEarly_dot {d : Char} (hd : d ≠ 'p') {rest : List Char} (hr : noEarly (d :: rest)) :
    noEarly ('.' :: d :: rest) :=
  ⟨isPrefixB_pkg_false_dot hd _, hr⟩

lemma removeFirstPkg_append_ext (X : List Char) (h : noEarly X) :
    removeFirstPkg (X ++ pkgExt) = X := by
  induction X with
  | nil => rfl
  | cons c rest ih =>
    show removeFirstPkg (c :: (rest ++ pkgExt)) = c :: rest
    unfold removeFirstPkg
    have h1 : isPrefixB pkgExt (c :: (rest ++ pkgExt)) = false := h.1
    rw [h1]
    simp only [Bool.false_eq_true, if_false]
    rw [ih h.2]

/-! ## C9: greedy boundary search -/

lemma findSplitFrom_eq (s : List Char) (sep : Nat) (hgood : goodSplit s sep = true) :
    ∀ k, sep ≤ k → (∀ j, sep < j → goodSplit s j = false) → findSplitFrom s k = some sep := by
  intro k
  induction k with
  | zero =>
    intro hle _
    exfalso
    have hz : sep = 0 := Nat.le_zero.mp hle
    subst hz
    unfold goodSplit at hgood
    simp at hgood
  | succ t ih =>
    intro hle hnone
    unfold findSplitFrom
    by_cases he : sep = t + 1
    · subst he
      simp [hgood]
    · have hj : goodSplit s (t + 1) = false := hnone (t + 1) (by omega)
      simp [hj]
      exact ih (by omega) hnone

lemma dropWhile_digits_dot (ds : List Char) (r : List Char)
    (h : ∀ c ∈ ds, c.isDigit = true) :
    (ds ++ '.' :: r).dropWhile Char.isDigit = '.' :: r := by
  induction ds with
  | nil => simp [List.dropWhile_cons]
  | cons c t ih =>
    simp only [List.cons_append, List.dropWhile_cons, h c (List.mem_cons_self c t), if_true]
    exact ih (fun x hx => h x (List.mem_cons_of_mem c hx))

lemma dropDigits1_cons (c : Char) (rest : List Char) :
    dropDigits1 (c :: rest) = if c.isDigit then some (rest.dropWhile Char.isDigit) else none := rfl

lemma digitTripleStart_core (v1 v2 v3 : List Char)
    (h1 : v1 ≠ []) (h2 : v2 ≠ []) (h3 : v3 ≠ [])
    (hd1 : ∀ c ∈ v1, c.isDigit = true) (hd2 : ∀ c ∈ v2, c.isDigit = true)
    (hd3 : ∀ c ∈ v3, c.isDigit = true) :
    digitTripleStart (v1 ++ '.' :: (v2 ++ '.' :: v3)) = true := by
  obtain ⟨d1, t1, rfl⟩ := List.exists_cons_of_ne_nil h1
  obtain ⟨d2, t2, rfl⟩ := List.exists_cons_of_ne_nil h2
  obtain ⟨d3, t3, rfl⟩ := List.exists_cons_of_ne_nil h3
  unfold digitTripleStart
  have e1 : dropDigits1 ((d1 :: t1) ++ '.' :: ((d2 :: t2) ++ '.' :: (d3 :: t3))) =
      some ('.' :: ((d2 :: t2) ++ '.' :: (d3 :: t3))) := by
    rw [show (d1 :: t1) ++ '.' :: ((d2 :: t2) ++ '.' :: (d3 :: t3)) =
        d1 :: (t1 ++ '.' :: ((d2 :: t2) ++ '.' :: (d3 :: t3))) from rfl, dropDigits1_cons,
      hd1 d1 (List.mem_cons_self d1 t1)]
    simp only [if_true]
    rw [dropWhile_digits_dot t1 _ (fun x hx => hd1 x (List.mem_cons_of_mem d1 hx))]
  rw [e1]
  show (match expectDot (dropDigits1 ((d2 :: t2) ++ '.' :: (d3 :: t3))) with
        | some r2 => (dropDigits1 r2).isSome
        | none => false) = true
  have e2 : dropDigits1 ((d2 :: t2) ++ '.' :: (d3 :: t3)) = some ('.' :: (d3 :: t3)) := by
    rw [show (d2 :: t2) ++ '.' :: (d3 :: t3) = d2 :: (t2 ++ '.' :: (d3 :: t3)) from rfl,
      dropDigits1_cons, hd2 d2 (List.mem_cons_self d2 t2)]
    simp only [if_true]
    rw [dropWhile_digits_dot t2 _ (fun x hx => hd2 x (List.mem_cons_of_mem d2 hx))]
  rw [e2]
  show (dropDigits1 (d3 :: t3)).isSome = true
  rw [dropDigits1_cons, hd3 d3 (List.mem_cons_self d3 t3)]
  rfl

/-! ## C9: the round trip, corrected -/

/-- C9 (amended): for every package name matching the name pattern and
every version of the exact core form `MAJOR.MINOR.PATCH` (nonempty digit
runs separated by dots, no pre-release or build suffix),
`parsePackageArchiveName` applied to the archive name built by
`createPackages` returns exactly that name and version.  (With pre-release
suffixes the round trip can fail — see the counterexample.) -/
theorem parsePackageArchiveName_roundTrip (name version : String) (v1 v2 v3 : List Char)
    (hname : specNamePattern name = true)
    (hver : version.data = v1 ++ '.' :: (v2 ++ '.' :: v3))
    (h1 : v1 ≠ []) (h2 : v2 ≠ []) (h3 : v3 ≠ [])
    (hd1 : ∀ c ∈ v1, c.isDigit = true) (hd2 : ∀ c ∈ v2, c.isDigit = true)
    (hd3 : ∀ c ∈ v3, c.isDigit = true) :
    parsePackageArchiveName (createArchiveName name version) = some (name, version) := by
  have hNclass : ∀ c ∈ name.data, (isLowerDigit c || c == '-') = true :=
    (namePat_class name.data).1 hname
  have hNne : name.data ≠ [] := segPat_ne_nil hname
  have hVmem : ∀ c ∈ version.data, c.isDigit = true ∨ c = '.' := by
    rw [hver]
    intro c hc
    rcases List.mem_append.mp hc with hc | hc
    · exact Or.inl (hd1 c hc)
    · rcases List.mem_cons.mp hc with rfl | hc
      · exact Or.inr rfl
      · rcases List.mem_append.mp hc with hc | hc
        · exact Or.inl (hd2 c hc)
        · rcases List.mem_cons.mp hc with rfl | hc
          · exact Or.inr rfl
          · exact Or.inl (hd3 c hc)
  have hfile : (createArchiveName name version).data =
      (name.data ++ '-' :: version.data) ++ pkgExt := by
    unfold createArchiveName
    rw [String.data_append, String.data_append, String.data_append]
    rw [show ("-" : String).data = ['-'] from rfl, show (".pkg" : String).data = pkgExt from rfl]
    simp [List.append_assoc]
  have hnoEarly : noEarly (name.data ++ '-' :: version.data) := by
    apply noEarly_append _ (fun c hc => nameClass_ne_dot (hNclass c hc))
    refine ⟨isPrefixB_pkg_false_of_head (by decide) _, ?_⟩
    rw [hver]
    obtain ⟨d2, t2, rfl⟩ := List.exists_cons_of_ne_nil h2
    obtain ⟨d3, t3, rfl⟩ := List.exists_cons_of_ne_nil h3
    apply noEarly_append v1 (fun c hc => (digit_ne (hd1 c hc)).1)
    have hn3 : noEarly (d3 :: t3) :=
      noEarly_of_class _ (fun c hc => (digit_ne (hd3 c hc)).1)
    have hmid : noEarly ((d2 :: t2) ++ '.' :: (d3 :: t3)) := by
      apply noEarly_append _ (fun c hc => (digit_ne (hd2 c hc)).1)
      exact noEarly_dot (digit_ne (hd3 d3 (List.mem_cons_self d3 t3))).2.1 hn3
    exact noEarly_dot (digit_ne (hd2 d2 (List.mem_cons_self d2 t2))).2.1 hmid
  have hbase : removeFirstPkg (createArchiveName name version).data =
      name.data ++ '-' :: version.data := by
    rw [hfile]
    exact removeFirstPkg_append_ext _ hnoEarly
  have hnlt : noLineTerm (name.data ++ '-' :: version.data) = true := by
    unfold noLineTerm
    rw [List.all_eq_true]
    intro c hc
    rcases List.mem_append.mp hc with hc | hc
    · exact nameClass_notLT (hNclass c hc)
    · rcases List.mem_cons.mp hc with rfl | hc
      · decide
      · rcases hVmem c hc with hd | rfl
        · exact digit_notLT hd
        · decide
  have hget : (name.data ++ '-' :: version.data)[name.data.length]? = some '-' := by
    rw [List.getElem?_append_right (Nat.le_refl _)]
    simp
  have hdrop : (name.data ++ '-' :: version.data).drop (name.data.length + 1) =
      version.data := by
    rw [show name.data ++ '-' :: version.data = (name.data ++ ['-']) ++ version.data by simp]
    rw [show name.data.length + 1 = (name.data ++ ['-']).length by simp]
    exact List.drop_left _ _
  have htake : (name.data ++ '-' :: version.data).take name.data.length = name.data :=
    List.take_left _ _
  have hgood : goodSplit (name.data ++ '-' :: version.data) name.data.length = true := by
    unfold goodSplit
    have hlen1 : decide (1 ≤ name.data.length) = true := by
      obtain ⟨a, t, he⟩ := List.exists_cons_of_ne_nil hNne
      rw [he]
      simp
    rw [hlen1, hget, hdrop, hver]
    simp [digitTripleStart_core v1 v2 v3 h1 h2 h3 hd1 hd2 hd3]
  have hnone : ∀ j, name.data.length < j →
      goodSplit (name.data ++ '-' :: version.data) j = false := by
    intro j hj
    unfold goodSplit
    have hb : ((name.data ++ '-' :: version.data)[j]? == some '-') = false := by
      rw [List.getElem?_append_right (by omega)]
      obtain ⟨m, hm⟩ : ∃ m, j - name.data.length = m + 1 :=
        ⟨j - name.data.length - 1, by omega⟩
      rw [hm, show ('-' :: version.data)[m + 1]? = version.data[m]? by simp]
      cases hv : version.data[m]? with
      | none => rfl
      | some c =>
        have hcm : c ∈ version.data := by
          obtain ⟨hlt, he⟩ := List.getElem?_eq_some_iff.mp hv
          rw [← he]
          exact List.getElem_mem hlt
        have hcne : c ≠ '-' := by
          rcases hVmem c hcm with hd | rfl
          · exact (digit_ne hd).2.2
          · decide
        show (some c == some '-') = false
        rw [show (some c == some '-') = (c == '-') from rfl]
        exact beq_eq_false_iff_ne.mpr hcne
    rw [hb]
    simp
  have hfind : findSplitFrom (name.data ++ '-' :: version.data)
      ((name.data ++ '-' :: version.data).length - 1) = some name.data.length := by
    apply findSplitFrom_eq _ _ hgood
    · have hl : (name.data ++ '-' :: version.data).length =
          name.data.length + (version.data.length + 1) := by simp
      omega
    · exact hnone
  unfold parsePackageArchiveName
  simp only [hbase, hnlt, if_true, hfind, htake, hdrop]

/-- C9 counterexample: two archive names built by `createPackages` from a
pattern-conforming name and a valid semver version that do not parse back
to the same pair.  With version `1.2.3-4.5.6` the greedy `(.+)` steals
`-1.2.3` into the name; with version `1.0.0-a.pkgb` the `replace('.pkg','')`
call deletes the interior `.pkg` instead of the extension. -/
theorem parsePackageArchiveName_roundTrip_cex :
    specNamePattern "a" = true ∧
    semverValid "1.2.3-4.5.6" = true ∧
    parsePackageArchiveName (createArchiveName "a" "1.2.3-4.5.6") =
      some ("a-1.2.3", "4.5.6") ∧
    (("a-1.2.3", "4.5.6") : String × String) ≠ ("a", "1.2.3-4.5.6") ∧
    semverValid "1.0.0-a.pkgb" = true ∧
    parsePackageArchiveName (createArchiveName "a" "1.0.0-a.pkgb") =
      some ("a", "1.0.0-ab.pkg") ∧
    (("a", "1.0.0-ab.pkg") : String × String) ≠ ("a", "1.0.0-a.pkgb") := by
  decide

/-- Witness for the amended C9 at a concrete hyphenated name and core
version. -/
theorem parsePackageArchiveName_roundTrip_witness :
    parsePackageArchiveName (createArchiveName "my-plugin" "2.10.3") =
      some ("my-plugin", "2.10.3") :=
  parsePackageArchiveName_roundTrip "my-plugin" "2.10.3" ['2'] ['1', '0'] ['3']
    (by decide) (by decide) (by decide) (by decide) (by decide)
    (by decide) (by decide) (by decide)
